import Mathlib

/-!
Shallow embedding of the Miller–Rabin primality tester (`src/lib.rs`) over `Nat`.

Arbitrary-precision `BigUint` values are modelled as `Nat`; the one fallible
`BigUint` operation reachable from the public API (`n - 1u8` underflowing when
`n = 0`, which panics) is modelled by returning `none` from `is_prime`.
`modpow` is modelled as `a ^ d % n` (the two are equal for every modulus the
program uses, all of which are ≥ 3).  The random sampler
`repeat_with(|| rng.gen_biguint(bits))` is modelled by an arbitrary stream of
naturals supplied as a list parameter.
-/

namespace MillerRabin

/-- Embeds `decompose`'s loop: `while &d % two == one { d /= two; r += 1u8; }`.
Note the source's loop condition tests `d % 2 == 1`, i.e. it runs while `d`
is odd. -/
def decomposeLoop (d r : Nat) : Nat × Nat :=
  if d % 2 = 1 then decomposeLoop (d / 2) (r + 1) else (d, r)
termination_by d
decreasing_by
  exact Nat.div_lt_self (by omega) (by omega)

/-- Embeds `decompose`: `d ← n - 1`, `r ← 0`, then the loop. -/
def decompose (n : Nat) : Nat × Nat :=
  decomposeLoop (n - 1) 0

/-- Embeds the squaring loop of `miller_rabin`: `while &count < r` with
`count` starting at 1, so the body runs `r - 1` times absent an early
return.  `fuel` is the number of remaining iterations, initially `r - 1`. -/
def mrLoop (n nm1 x fuel : Nat) : Bool :=
  match fuel with
  | 0 => true
  | f + 1 =>
    let x2 := x ^ 2 % n
    if x2 = nm1 then false else mrLoop n nm1 x2 f

/-- Embeds `miller_rabin(a, n, d, r)`: `x ← a.modpow(d, n)`; early return
`false` when `x = 1` or `x = n - 1`; otherwise the squaring loop; `true`
when the loop falls through. -/
def miller_rabin (a n d r : Nat) : Bool :=
  let nm1 := n - 1
  let x := a ^ d % n
  if x = 1 ∨ x = nm1 then false
  else mrLoop n nm1 x (r - 1)

/-- Embeds `is_witness(a, n)`: `None` when `a < 2 || n < 3`, otherwise
`Some` of the kernel applied with a fresh decomposition of `n`. -/
def is_witness (a n : Nat) : Option Bool :=
  if a < 2 ∨ n < 3 then none
  else some (miller_rabin a n (decompose n).1 (decompose n).2)

/-- The fixed sample list `vec![2, 3, 5, 7, 11, 13, 17, 19, 23, 29, 31, 37]`. -/
def fixedSamples : List Nat := [2, 3, 5, 7, 11, 13, 17, 19, 23, 29, 31, 37]

/-- `0xFFFF_FFFF_FFFF_FFFF`, the deterministic-band cutoff. -/
def u64max : Nat := 2 ^ 64 - 1

/-- The bases `is_prime` feeds to the kernel in the deterministic band:
`samples.par_iter().filter(|&&m| biguint!(m) < n_minus_one)`. -/
def detBases (n : Nat) : List Nat :=
  fixedSamples.filter (fun m => decide (m < n - 1))

/-- The bases `is_prime` feeds to the kernel in the probabilistic band:
`repeat_with(|| rng.gen_biguint(bits)).filter(|m| m < &n_minus_one).take(k)`,
with the random draws modelled by the arbitrary `stream`. -/
def probBases (stream : List Nat) (n k : Nat) : List Nat :=
  (stream.filter (fun m => decide (m < n - 1))).take k

/-- Embeds `is_prime(n, k)`.  The source computes `n - 1u8` on a `BigUint`
before any guard, which panics when `n = 0`: that is the `none` branch.
`find_any(..).is_none()` is `!(bases.any ..)`. -/
def is_prime (stream : List Nat) (n k : Nat) : Option Bool :=
  if n = 0 then none
  else if n ≤ 1 then some false
  else if n ≤ 3 then some true
  else if n ≤ u64max then
    some (!((detBases n).any
      (fun a => miller_rabin a n (decompose n).1 (decompose n).2)))
  else
    some (!((probBases stream n k).any
      (fun a => miller_rabin a n (decompose n).1 (decompose n).2)))

/-- Number of modular squarings `x ← x² mod n` executed by the squaring
loop of `miller_rabin` on the given remaining-iteration budget. -/
def mrLoopCount (n nm1 x fuel : Nat) : Nat :=
  match fuel with
  | 0 => 0
  | f + 1 =>
    let x2 := x ^ 2 % n
    if x2 = nm1 then 1 else 1 + mrLoopCount n nm1 x2 f

/-- Number of modular squarings executed by `miller_rabin(a, n, d, r)`. -/
def mrSquarings (a n d r : Nat) : Nat :=
  let nm1 := n - 1
  let x := a ^ d % n
  if x = 1 ∨ x = nm1 then 0 else mrLoopCount n nm1 x (r - 1)

/-! ### Basic behaviour of `decompose` -/

/-- On an even `d` the source's loop (condition `d % 2 == 1`) exits at once. -/
theorem decomposeLoop_even (d r : Nat) (h : d % 2 = 0) : decomposeLoop d r = (d, r) := by
  rw [decomposeLoop]
  simp [h]

/-- For odd `n` the loop body never runs: `decompose n = (n - 1, 0)`. -/
theorem decompose_of_odd (n : Nat) (h : n % 2 = 1) : decompose n = (n - 1, 0) := by
  unfold decompose
  exact decomposeLoop_even _ _ (by omega)

/-- The loop exits only on an even `d`, so the returned `d` is always even. -/
theorem decomposeLoop_fst_even (d r : Nat) : (decomposeLoop d r).1 % 2 = 0 := by
  induction d using Nat.strong_induction_on generalizing r with
  | _ d ih =>
    rw [decomposeLoop]
    split
    · exact ih (d / 2) (Nat.div_lt_self (by omega) (by omega)) (r + 1)
    · simpa using by omega

/-- The `d` returned by `decompose` is always even, whatever `n` is. -/
theorem decompose_fst_even (n : Nat) : (decompose n).1 % 2 = 0 :=
  decomposeLoop_fst_even _ _

/-! ### Modular arithmetic helpers -/

/-- `(n - 1)² ≡ 1 (mod n)` for `n ≥ 2`. -/
theorem sq_sub_one_mod (n : Nat) (h2 : 2 ≤ n) : (n - 1) ^ 2 % n = 1 := by
  obtain ⟨m, rfl⟩ : ∃ m, n = m + 2 := ⟨n - 2, by omega⟩
  have hsq : (m + 2 - 1) ^ 2 = (m + 2) * m + 1 := by
    have : m + 2 - 1 = m + 1 := by omega
    rw [this]; ring
  rw [hsq, Nat.mul_add_mod]
  exact Nat.mod_eq_of_lt (by omega)

/-- `(n - 1)^d ≡ 1 (mod n)` for `n ≥ 2` and even `d`. -/
theorem pow_sub_one_even_mod (n d : Nat) (h2 : 2 ≤ n) (hd : d % 2 = 0) :
    (n - 1) ^ d % n = 1 := by
  obtain ⟨k, rfl⟩ : ∃ k, d = 2 * k := ⟨d / 2, by omega⟩
  have h1 : (n - 1) ^ 2 ≡ 1 [MOD n] := by
    unfold Nat.ModEq
    rw [sq_sub_one_mod n h2, Nat.mod_eq_of_lt (by omega)]
  have h2' : ((n - 1) ^ 2) ^ k ≡ 1 ^ k [MOD n] := h1.pow k
  have h3 : (n - 1) ^ (2 * k) ≡ 1 [MOD n] := by
    rw [pow_mul]
    simpa using h2'
  calc (n - 1) ^ (2 * k) % n = 1 % n := h3
    _ = 1 := Nat.mod_eq_of_lt (by omega)

/-- Fermat's little theorem, `Nat` form: `a^(p-1) mod p = 1` for prime `p ∤ a`. -/
theorem fermat_mod (p a : Nat) (hp : Nat.Prime p) (hnd : ¬ p ∣ a) :
    a ^ (p - 1) % p = 1 := by
  haveI : Fact p.Prime := ⟨hp⟩
  have h0 : (a : ZMod p) ≠ 0 := by
    rwa [Ne, ZMod.natCast_zmod_eq_zero_iff_dvd]
  have h1 : ((a ^ (p - 1) : ℕ) : ZMod p) = ((1 : ℕ) : ZMod p) := by
    push_cast
    exact ZMod.pow_card_sub_one_eq_one h0
  have hm : a ^ (p - 1) ≡ 1 [MOD p] := (ZMod.natCast_eq_natCast_iff _ _ _).mp h1
  calc a ^ (p - 1) % p = 1 % p := hm
    _ = 1 := Nat.mod_eq_of_lt hp.one_lt

/-! ### Core fact for the witness-kernel criterion: `a^(n-1) ≡ -1 (mod n)` is impossible -/

theorem mod_eq_one_of_factors (M : Nat) (hM : 2 ≤ M) :
    ∀ n, 1 ≤ n → (∀ p, Nat.Prime p → p ∣ n → p % M = 1) → n % M = 1 := by
  intro n
  induction n using Nat.strong_induction_on with
  | _ n ih =>
    intro hn hfac
    rcases eq_or_lt_of_le hn with h1 | h2
    · rw [← h1]
      exact Nat.mod_eq_of_lt (by omega)
    · have hne1 : n ≠ 1 := by omega
      have hp : n.minFac.Prime := Nat.minFac_prime hne1
      have hpd : n.minFac ∣ n := Nat.minFac_dvd n
      have hmul : n.minFac * (n / n.minFac) = n := Nat.mul_div_cancel' hpd
      have hlt : n / n.minFac < n := Nat.div_lt_self (by omega) hp.one_lt
      have hpos : 1 ≤ n / n.minFac :=
        Nat.one_le_div_iff hp.pos |>.mpr (Nat.le_of_dvd (by omega) hpd)
      have hsub : (n / n.minFac) % M = 1 := by
        refine ih (n / n.minFac) hlt hpos (fun q hq hqd => ?_)
        exact hfac q hq (hqd.trans (Nat.div_dvd_of_dvd hpd))
      have hpm : n.minFac % M = 1 := hfac n.minFac hp hpd
      have hme : n.minFac * (n / n.minFac) ≡ 1 * 1 [MOD M] := by
        refine Nat.ModEq.mul ?_ ?_
        · unfold Nat.ModEq
          rw [hpm, Nat.mod_eq_of_lt (by omega)]
        · unfold Nat.ModEq
          rw [hsub, Nat.mod_eq_of_lt (by omega)]
      have := hme
      rw [hmul, one_mul] at this
      calc n % M = 1 % M := this
        _ = 1 := Nat.mod_eq_of_lt (by omega)

/-- No base has `a^(n-1) ≡ n - 1 (mod n)` when `n` is odd and at least 3. -/
theorem pow_sub_one_ne_sub_one (n a : Nat) (hodd : n % 2 = 1) (h3 : 3 ≤ n) :
    a ^ (n - 1) % n ≠ n - 1 := by
  intro h
  obtain ⟨e, d0, hd0, hn1⟩ :=
    Nat.exists_eq_pow_mul_and_not_dvd (n := n - 1) (by omega) 2 (by norm_num)
  have he1 : 1 ≤ e := by
    rcases e with _ | e'
    · rw [pow_zero, one_mul] at hn1
      omega
    · omega
  have h2e : 2 ≤ 2 ^ (e + 1) := by
    have : (2 : Nat) ^ 1 ≤ 2 ^ (e + 1) := Nat.pow_le_pow_right (by norm_num) (by omega)
    simpa using this
  have key : ∀ p, Nat.Prime p → p ∣ n → p % 2 ^ (e + 1) = 1 := by
    intro p hp hpn
    have hp2 : 2 < p := by
      rcases Nat.lt_or_ge p 3 with hlt | hge
      · exfalso
        have := hp.two_le
        have hpe : p = 2 := by omega
        rw [hpe] at hpn
        omega
      · omega
    haveI : Fact p.Prime := ⟨hp⟩
    haveI : Fact (2 < p) := ⟨hp2⟩
    have hmn : a ^ (n - 1) ≡ n - 1 [MOD n] := by
      unfold Nat.ModEq
      rw [h, Nat.mod_eq_of_lt (by omega)]
    have hmp : a ^ (n - 1) ≡ n - 1 [MOD p] := hmn.of_dvd hpn
    have hcast : ((a : ZMod p)) ^ (n - 1) = -1 := by
      have hc1 : ((a ^ (n - 1) : ℕ) : ZMod p) = ((n - 1 : ℕ) : ZMod p) :=
        (ZMod.natCast_eq_natCast_iff _ _ _).mpr hmp
      have hn0 : ((n : ℕ) : ZMod p) = 0 := (ZMod.natCast_zmod_eq_zero_iff_dvd _ _).mpr hpn
      have hc2 : ((n - 1 : ℕ) : ZMod p) = -1 := by
        rw [Nat.cast_sub (by omega : (1 : ℕ) ≤ n), hn0, Nat.cast_one]
        ring
      rw [hc2] at hc1
      rw [← hc1]
      push_cast
      ring
    have hbe : ((a : ZMod p) ^ d0) ^ (2 ^ e) = -1 := by
      rw [← pow_mul, mul_comm d0 (2 ^ e), ← hn1]
      exact hcast
    have hb2 : ((a : ZMod p) ^ d0) ^ (2 ^ (e + 1)) = 1 := by
      rw [pow_succ, pow_mul, hbe]
      norm_num
    have hdvd : orderOf ((a : ZMod p) ^ d0) ∣ 2 ^ (e + 1) := orderOf_dvd_of_pow_eq_one hb2
    obtain ⟨j, hj, hoj⟩ := (Nat.dvd_prime_pow Nat.prime_two).mp hdvd
    have hje : j = e + 1 := by
      by_contra hne
      have hjle : j ≤ e := by omega
      have hdve : orderOf ((a : ZMod p) ^ d0) ∣ 2 ^ e := hoj ▸ pow_dvd_pow 2 hjle
      have hbe1 : ((a : ZMod p) ^ d0) ^ (2 ^ e) = 1 := orderOf_dvd_iff_pow_eq_one.mp hdve
      rw [hbe] at hbe1
      exact ZMod.neg_one_ne_one hbe1
    have hb0 : (a : ZMod p) ^ d0 ≠ 0 := by
      intro h0
      rw [h0, zero_pow (by positivity)] at hbe
      exact one_ne_zero (neg_eq_zero.mp hbe.symm)
    have hford : orderOf ((a : ZMod p) ^ d0) ∣ p - 1 :=
      orderOf_dvd_of_pow_eq_one (ZMod.pow_card_sub_one_eq_one hb0)
    rw [hoj, hje] at hford
    obtain ⟨t, ht⟩ := hford
    have hpt : p = 2 ^ (e + 1) * t + 1 := by
      have := hp.pos
      omega
    rw [hpt, Nat.mul_add_mod]
    exact Nat.mod_eq_of_lt (by omega)
  have hnm : n % 2 ^ (e + 1) = 1 := mod_eq_one_of_factors _ h2e n (by omega) key
  have hdv : 2 ^ (e + 1) ∣ n - 1 := by
    refine ⟨n / 2 ^ (e + 1), ?_⟩
    have hda := Nat.div_add_mod n (2 ^ (e + 1))
    omega
  rw [hn1, pow_succ] at hdv
  have h2d : 2 ∣ d0 := (Nat.mul_dvd_mul_iff_left (Nat.two_pow_pos e)).mp hdv
  exact hd0 h2d

/-! ### Behaviour of the witness kernel -/

/-- The squaring loop performs at most `fuel` squarings. -/
theorem mrLoopCount_le (n nm1 x fuel : Nat) : mrLoopCount n nm1 x fuel ≤ fuel := by
  induction fuel generalizing x with
  | zero => simp [mrLoopCount]
  | succ f ih =>
    simp only [mrLoopCount]
    split
    · omega
    · have := ih (x ^ 2 % n)
      omega

/-- `miller_rabin` performs at most `r - 1` modular squarings. -/
theorem mrSquarings_le (a n d r : Nat) : mrSquarings a n d r ≤ r - 1 := by
  simp only [mrSquarings]
  split
  · omega
  · exact mrLoopCount_le n (n - 1) (a ^ d % n) (r - 1)

/-- The kernel's first early return fires whenever `a^d ≡ 1 (mod n)`. -/
theorem miller_rabin_false_of_one (a n d r : Nat) (h : a ^ d % n = 1) :
    miller_rabin a n d r = false := by
  simp only [miller_rabin]
  rw [if_pos (Or.inl h)]

/-- With `r = 0` the squaring loop never runs, so the kernel's verdict is
decided entirely by the early-return check. -/
theorem miller_rabin_r_zero (a n d : Nat) :
    miller_rabin a n d 0 = false ↔ (a ^ d % n = 1 ∨ a ^ d % n = n - 1) := by
  simp only [miller_rabin]
  split
  · simpa using ‹_›
  · simp [mrLoop, ‹¬_›]

/-- Concrete run of `decompose` on the composite 4. -/
theorem decompose_four : decompose 4 = (0, 2) := by
  simp [decompose, decomposeLoop]

/-! ### Claim theorems -/

/-- C1: the claim says `is_prime` is total with `is_prime(0,k) = is_prime(1,k) = false`.
The source computes `n - 1u8` on a `BigUint` before the `n ≤ 1` guard, so
`is_prime(0, k)` panics (modelled as `none`); `is_prime(1, k)` does return
`false`.  This records the code's actual behaviour at the failing input. -/
theorem claim_C1_totality_failure : ∀ (stream : List Nat) (k : Nat),
    is_prime stream 0 k = none ∧ is_prime stream 1 k = some false :=
  fun _ _ => ⟨rfl, rfl⟩

/-- C2 (amended): every base taken from the fixed deterministic list satisfies
`2 ≤ a < n - 1`, but a random sample in the probabilistic band is only
guaranteed to satisfy `a < n - 1` — the filter does not enforce `a ≥ 2`. -/
theorem claim_C2_bases_in_range :
    (∀ n a, a ∈ detBases n → 2 ≤ a ∧ a < n - 1) ∧
    (∀ (stream : List Nat) (n k a : Nat), a ∈ probBases stream n k → a < n - 1) := by
  constructor
  · intro n a ha
    simp only [detBases, List.mem_filter, decide_eq_true_eq] at ha
    obtain ⟨hmem, hlt⟩ := ha
    have h2 : ∀ y ∈ fixedSamples, 2 ≤ y := by decide
    exact ⟨h2 a hmem, hlt⟩
  · intro stream n k a ha
    simp only [probBases] at ha
    have hmem := (List.take_sublist k _).mem ha
    have := (List.mem_filter.mp hmem).2
    simpa using this

/-- Witness for C2's amended theorem at concrete inputs. -/
theorem claim_C2_witness : ((2:Nat) ≤ 2 ∧ 2 < 10 - 1) ∧ (5:Nat) < 2 ^ 64 - 1 :=
  ⟨claim_C2_bases_in_range.1 10 2 (by decide),
   claim_C2_bases_in_range.2 [5] (2 ^ 64) 1 5 (by decide)⟩

/-- C2 counterexample: for `n = 2^64` (probabilistic band, as `n > 2^64 - 1`)
a drawn sample of `0` survives the `m < n - 1` filter and is handed to the
kernel, violating `2 ≤ a`. -/
theorem claim_C2_counterexample :
    ¬ ((2:Nat) ^ 64 ≤ u64max) ∧ 0 ∈ probBases [0] (2 ^ 64) 1 ∧ ¬ (2 ≤ (0:Nat)) :=
  ⟨by decide, by decide, by decide⟩

/-- C3 (amended): for odd `n ≥ 3` with `(d, r) = decompose n`, base 1 is a
non-witness via the `x = 1` early return, but base 0 yields
`x = 0^d mod n = 0`, misses both early-return checks, and is reported as a
witness (`true`) — so a random sample of 0 can flip the verdict to `false`. -/
theorem claim_C3_bases_zero_one (n : Nat) (hodd : n % 2 = 1) (h3 : 3 ≤ n) :
    miller_rabin 1 n (decompose n).1 (decompose n).2 = false ∧
    miller_rabin 0 n (decompose n).1 (decompose n).2 = true := by
  have hdec := decompose_of_odd n hodd
  have hd : (decompose n).1 = n - 1 := by rw [hdec]
  have hr : (decompose n).2 = 0 := by rw [hdec]
  rw [hd, hr]
  constructor
  · apply miller_rabin_false_of_one
    rw [one_pow]
    exact Nat.mod_eq_of_lt (by omega)
  · have hx : (0:Nat) ^ (n - 1) % n = 0 := by
      rw [zero_pow (by omega : n - 1 ≠ 0)]
      exact Nat.zero_mod n
    simp only [miller_rabin, hx]
    rw [if_neg (by omega)]
    rfl

/-- Witness for C3's amended theorem at `n = 9`. -/
theorem claim_C3_witness :
    miller_rabin 1 9 (decompose 9).1 (decompose 9).2 = false ∧
    miller_rabin 0 9 (decompose 9).1 (decompose 9).2 = true :=
  claim_C3_bases_zero_one 9 (by norm_num) (by norm_num)

/-- C3 counterexample: at odd `n = 9`, `decompose 9 = (8, 0)` and the kernel
reports base 0 as a witness (`true`), contradicting the claim that it
returns `false` (non-witness) on base 0. -/
theorem claim_C3_counterexample :
    decompose 9 = (8, 0) ∧ miller_rabin 0 9 8 0 = true := by
  constructor
  · rw [decompose_of_odd 9 (by norm_num)]
  · decide

/-- C4: the claim says the verdict is exact for `2 ≤ n ≤ 2^64 - 1`.  Because
`decompose`'s loop condition is inverted, `decompose 4 = (0, 2)`, every
base satisfies `a^0 ≡ 1`, and the composite 4 is reported prime. -/
theorem claim_C4_det_band_failure : is_prime [] 4 16 = some true ∧ ¬ Nat.Prime 4 := by
  constructor
  · simp [is_prime, u64max, decompose_four, detBases, fixedSamples, miller_rabin, mrLoop]
  · norm_num

/-- C5: for odd `n ≥ 3`, a base `2 ≤ a ≤ n - 2` and `(d, r) = decompose n`
(which the source makes `(n - 1, 0)`), the kernel returns `false` iff
`a^d ≡ 1 (mod n)` or `a^(d·2^i) ≡ n - 1 (mod n)` for some `i < r`.  The
interesting direction rests on `a^(n-1) ≡ -1 (mod n)` being impossible. -/
theorem claim_C5_kernel_criterion (n a d r : Nat) (hodd : n % 2 = 1)
    (h3 : 3 ≤ n) (ha2 : 2 ≤ a) (han : a ≤ n - 2) (hdr : decompose n = (d, r)) :
    miller_rabin a n d r = false ↔
      (a ^ d % n = 1 ∨ ∃ i, i < r ∧ a ^ (d * 2 ^ i) % n = n - 1) := by
  have hdec := decompose_of_odd n hodd
  rw [hdr] at hdec
  have hd : d = n - 1 := congrArg Prod.fst hdec
  have hr : r = 0 := congrArg Prod.snd hdec
  subst hd
  subst hr
  rw [miller_rabin_r_zero]
  simp only [Nat.not_lt_zero, false_and, exists_false, or_false]
  have hne := pow_sub_one_ne_sub_one n a hodd h3
  constructor
  · rintro (h1 | h1)
    · exact h1
    · exact absurd h1 hne
  · exact Or.inl

/-- Witness for C5 at `n = 9`, `a = 2`, `(d, r) = decompose 9 = (8, 0)`. -/
theorem claim_C5_witness :
    miller_rabin 2 9 8 0 = false ↔
      (2 ^ 8 % 9 = 1 ∨ ∃ i, i < 0 ∧ 2 ^ (8 * 2 ^ i) % 9 = 9 - 1) :=
  claim_C5_kernel_criterion 9 2 8 0 (by norm_num) (by norm_num) (by norm_num)
    (by norm_num) (by rw [decompose_of_odd 9 (by norm_num)])

/-- C6: the claim says for odd `n ≥ 3`, `decompose n = (d, r)` with `d` odd
and `r ≥ 1`.  The source's loop condition tests `d % 2 == 1` instead of
`d % 2 == 0`, so for odd `n` it exits at once: at `n = 5` it returns
`(4, 0)`, with `d = 4` even and `r = 0`. -/
theorem claim_C6_decompose_failure : decompose 5 = (4, 0) ∧ 4 % 2 = 0 := by
  constructor
  · rw [decompose_of_odd 5 (by norm_num)]
  · rfl

/-- C7: a prime is never witnessed composite: for prime `p` and any base
`2 ≤ a ≤ p - 2` the kernel returns `false` (Fermat's little theorem makes
`a^(p-1) ≡ 1`), and `is_prime` returns `true` on every prime in the
deterministic band. -/
theorem claim_C7_prime_never_witnessed (p : Nat) (hp : Nat.Prime p) :
    (∀ a, 2 ≤ a → a ≤ p - 2 →
      miller_rabin a p (decompose p).1 (decompose p).2 = false) ∧
    (p ≤ u64max → ∀ (stream : List Nat) (k : Nat), is_prime stream p k = some true) := by
  have hker : ∀ a, 2 ≤ a → a ≤ p - 2 →
      miller_rabin a p (decompose p).1 (decompose p).2 = false := by
    intro a ha2 hale
    have hp4 : 4 ≤ p := by
      have := hp.two_le
      omega
    have hodd : p % 2 = 1 := Nat.odd_iff.mp (hp.odd_of_ne_two (by omega))
    have hdec := decompose_of_odd p hodd
    have hd : (decompose p).1 = p - 1 := by rw [hdec]
    have hr : (decompose p).2 = 0 := by rw [hdec]
    rw [hd, hr]
    apply miller_rabin_false_of_one
    apply fermat_mod p a hp
    intro hdvd
    have := Nat.le_of_dvd (by omega) hdvd
    omega
  refine ⟨hker, fun hband stream k => ?_⟩
  have hp2 := hp.two_le
  rcases Nat.lt_or_ge p 4 with hlt | hge
  · unfold is_prime
    rw [if_neg (by omega), if_neg (by omega), if_pos (by omega)]
  · unfold is_prime
    rw [if_neg (by omega), if_neg (by omega), if_neg (by omega), if_pos hband]
    have hany : (detBases p).any
        (fun a => miller_rabin a p (decompose p).1 (decompose p).2) = false := by
      rw [List.any_eq_false]
      intro x hx
      simp only [detBases, List.mem_filter, decide_eq_true_eq] at hx
      obtain ⟨hmem, hlt'⟩ := hx
      have hx2 : 2 ≤ x := by
        have hall : ∀ y ∈ fixedSamples, 2 ≤ y := by decide
        exact hall x hmem
      simp [hker x hx2 (by omega)]
    rw [hany]
    rfl

/-- Witness for C7 at the prime `p = 5`. -/
theorem claim_C7_witness :
    miller_rabin 2 5 (decompose 5).1 (decompose 5).2 = false ∧
    is_prime [] 5 16 = some true :=
  ⟨(claim_C7_prime_never_witnessed 5 (by norm_num)).1 2 (by norm_num) (by norm_num),
   (claim_C7_prime_never_witnessed 5 (by norm_num)).2 (by decide) [] 16⟩

/-- C8: `is_witness` returns the invalid-input signal (`none`) iff `a < 2`
or `n < 3`, and otherwise `some` of the kernel run on a fresh
decomposition of `n`, never conflating the two. -/
theorem claim_C8_is_witness_contract : ∀ a n : Nat,
    (is_witness a n = none ↔ (a < 2 ∨ n < 3)) ∧
    (2 ≤ a → 3 ≤ n →
      is_witness a n = some (miller_rabin a n (decompose n).1 (decompose n).2)) := by
  intro a n
  constructor
  · unfold is_witness
    split
    · simpa using ‹_›
    · simp [‹¬_›]
  · intro h2 h3
    unfold is_witness
    rw [if_neg (by omega)]

/-- Witness for C8 at `(a, n) = (1, 27)` (invalid) and `(2, 27)` (valid). -/
theorem claim_C8_witness :
    is_witness 1 27 = none ∧
    is_witness 2 27 = some (miller_rabin 2 27 (decompose 27).1 (decompose 27).2) :=
  ⟨(claim_C8_is_witness_contract 1 27).1.mpr (by norm_num),
   (claim_C8_is_witness_contract 2 27).2 (by norm_num) (by norm_num)⟩

/-- C9 (amended): the squaring loop (`count` starting at 1, `while count < r`)
performs at most `r - 1` squarings (hence at most `r`), and the bound is
attained: on `(a, n, d, r) = (2, 9, 1, 3)` exactly `r - 1 = 2` squarings run. -/
theorem claim_C9_squaring_budget :
    (∀ a n d r, mrSquarings a n d r ≤ r - 1) ∧
    (1 ≤ 3 ∧ mrSquarings 2 9 1 3 = 3 - 1) :=
  ⟨mrSquarings_le, by norm_num, by decide⟩

/-- C9 counterexample: no input with `r ≥ 1` executes exactly `r` squarings,
refuting the claim's existential part (the loop bound is `r - 1`, not `r`). -/
theorem claim_C9_counterexample :
    ¬ ((∀ a n d r, mrSquarings a n d r ≤ r) ∧
       (∃ a n d r, 1 ≤ r ∧ mrSquarings a n d r = r)) := by
  rintro ⟨-, a, n, d, r, hr, he⟩
  have := mrSquarings_le a n d r
  omega

/-- C10: for `n ≥ 3` the entry point accepts the out-of-range base `n - 1`
and reports it a non-witness: `decompose` always returns an even `d`, so
`(n-1)^d ≡ 1 (mod n)` and the kernel's early return fires. -/
theorem claim_C10_base_n_sub_one (n : Nat) (h3 : 3 ≤ n) :
    is_witness (n - 1) n = some false := by
  unfold is_witness
  rw [if_neg (by omega)]
  have hfalse : miller_rabin (n - 1) n (decompose n).1 (decompose n).2 = false :=
    miller_rabin_false_of_one _ _ _ _
      (pow_sub_one_even_mod n _ (by omega) (decompose_fst_even n))
  rw [hfalse]

/-- Witness for C10 at `n = 27`. -/
theorem claim_C10_witness : is_witness 26 27 = some false :=
  claim_C10_base_n_sub_one 27 (by norm_num)

end MillerRabin
